import Mathlib

/-!
Shallow embedding of the plumtree per-node protocol automaton (`src/node.rs`)
with the Missing-Message Tracker and Action Queue completed from the
specification, since the repository stubs them out.

`u64` rounds and clocks are modelled as `Nat`; the one place the code uses
modular-sensitive arithmetic (`saturating_add`) is made explicit via `satAdd1`.
Hash sets are modelled as duplicate-free lists with insertion-order iteration.
-/

namespace Plumtree

/-- Upper bound of `u64`: `2 ^ 64 - 1`. -/
def u64MAX : Nat := 2 ^ 64 - 1

/-- `r.saturating_add(1)` on `u64` values (`node.rs` lines 142 and 153). -/
def satAdd1 (r : Nat) : Nat := min (r + 1) u64MAX

/-- `HashSet::insert`: add an element if absent (iteration order: append). -/
def listInsert [DecidableEq α] (a : α) (l : List α) : List α :=
  if a ∈ l then l else l ++ [a]

/-- `HashSet::remove`: drop an element. -/
def listRemove [DecidableEq α] (a : α) (l : List α) : List α :=
  l.filter (fun x => decide (x ≠ a))

/-- `GossipMessage` (broadcast payload announcement; round = hop count). -/
structure GossipMessage (N M : Type) where
  sender : N
  message_id : M
  round : Nat
deriving DecidableEq

/-- `IhaveMessage` (lazy announcement that a message is reachable via sender). -/
structure IhaveMessage (N M : Type) where
  sender : N
  message_id : M
  round : Nat
deriving DecidableEq

/-- `GraftMessage` (request to promote sender to eager, optionally re-request). -/
structure GraftMessage (N M : Type) where
  sender : N
  message_id : Option M
  round : Nat
deriving DecidableEq

/-- `PruneMessage` (request to demote sender to lazy). -/
structure PruneMessage (N : Type) where
  sender : N
deriving DecidableEq

/-- The four wire messages. -/
inductive Message (N M : Type) where
  | gossip : GossipMessage N M → Message N M
  | ihave : IhaveMessage N M → Message N M
  | graft : GraftMessage N M → Message N M
  | prune : PruneMessage N → Message N M
deriving DecidableEq

/-- `Message::sender()`. -/
def Message.sender : Message N M → N
  | .gossip m => m.sender
  | .ihave m => m.sender
  | .graft m => m.sender
  | .prune m => m.sender

/-- An intent emitted by the automaton: `Send(target, message)` or
`Deliver(message_id)`. -/
inductive Action (N M : Type) where
  | send : N → Message N M → Action N M
  | deliver : M → Action N M
deriving DecidableEq

/-- Modelled from the spec: a Missing-Message Tracker entry
`{message_id, sender, round, deadline}` (§4.2); the repository stubs
`MissingMessages` out entirely. -/
structure MissingEntry (N M : Type) where
  message_id : M
  sender : N
  round : Nat
  deadline : Nat
deriving DecidableEq

/-- Modelled from the spec: `cancel_timer(message_id)` removes all entries
for `message_id` (§4.2); the repository stubs it as a no-op. -/
def cancelTimer [DecidableEq M] (id : M) (l : List (MissingEntry N M)) :
    List (MissingEntry N M) :=
  l.filter (fun e => decide (e.message_id ≠ id))

/-- Modelled from the spec: `get_by_id(message_id)` returns the entry with the
minimum round among all entries for that id, earliest inserted on ties (§4.2);
the repository stubs it with an unconditional panic. -/
def getById [DecidableEq M] (id : M) : List (MissingEntry N M) →
    Option (MissingEntry N M)
  | [] => none
  | e :: rest =>
    match getById id rest with
    | none => if e.message_id = id then some e else none
    | some e2 =>
      if e.message_id = id ∧ e.round ≤ e2.round then some e else some e2

/-- Modelled from the spec: `pop_expired(now)` removes and returns one entry
with `deadline ≤ now`, earliest deadline first with insertion-order tie-break
(§4.2); the repository stubs it with an unconditional panic. -/
def popExpired (now : Nat) : List (MissingEntry N M) →
    Option (MissingEntry N M × List (MissingEntry N M))
  | [] => none
  | e :: rest =>
    match popExpired now rest with
    | none => if e.deadline ≤ now then some (e, rest) else none
    | some (e2, rest2) =>
      if e.deadline ≤ now ∧ e.deadline ≤ e2.deadline then some (e, rest)
      else some (e2, e :: rest2)

/-- The per-node automaton state (`Node` in `node.rs`).  The action queue is
the FIFO buffer of §4.3 (append at the back, pop at the front). -/
structure Node (N M : Type) where
  node_id : N
  eager_push_peers : List N
  lazy_push_peers : List N
  missing : List (MissingEntry N M)
  received_msgs : List M
  action_queue : List (Action N M)
  clock : Nat
deriving DecidableEq

variable {N M : Type} [DecidableEq N] [DecidableEq M]

/-- `Node::new`. -/
def Node.new (node_id : N) : Node N M :=
  { node_id := node_id
    eager_push_peers := []
    lazy_push_peers := []
    missing := []
    received_msgs := []
    action_queue := []
    clock := 0 }

/-- `Node::is_known_node`. -/
def Node.is_known_node (s : Node N M) (n : N) : Prop :=
  n ∈ s.eager_push_peers ∨ n ∈ s.lazy_push_peers

instance (s : Node N M) (n : N) : Decidable (s.is_known_node n) := by
  unfold Node.is_known_node
  exact inferInstance

/-- `Node::handle_neighbour_up`. -/
def Node.handle_neighbour_up (s : Node N M) (p : N) : Node N M :=
  if s.node_id = p then s
  else { s with eager_push_peers := listInsert p s.eager_push_peers }

/-- `Node::handle_neighbour_down`. -/
def Node.handle_neighbour_down (s : Node N M) (p : N) : Node N M :=
  { s with
    eager_push_peers := listRemove p s.eager_push_peers
    lazy_push_peers := listRemove p s.lazy_push_peers
    missing := s.missing.filter (fun e => decide (e.sender ≠ p)) }

/-- `Node::forget_message`. -/
def Node.forget_message (s : Node N M) (id : M) : Node N M :=
  { s with received_msgs := listRemove id s.received_msgs }

/-- The `Send` actions produced by `Node::eager_push`: the gossip with sender
rewritten to self and round bumped by `saturating_add(1)`, one per eager peer
other than the original sender. -/
def eagerSends (s : Node N M) (m : GossipMessage N M) : List (Action N M) :=
  (s.eager_push_peers.filter (fun p => decide (p ≠ m.sender))).map
    (fun p => Action.send p
      (Message.gossip ⟨s.node_id, m.message_id, satAdd1 m.round⟩))

/-- The `Send` actions produced by `Node::lazy_push`: an `Ihave` per peer of
the eager set (the set the source iterates) other than the original sender. -/
def lazySends (s : Node N M) (m : GossipMessage N M) : List (Action N M) :=
  (s.eager_push_peers.filter (fun p => decide (p ≠ m.sender))).map
    (fun p => Action.send p
      (Message.ihave ⟨s.node_id, m.message_id, satAdd1 m.round⟩))

/-- `Node::eager_push`. -/
def Node.eager_push (s : Node N M) (m : GossipMessage N M) : Node N M :=
  { s with action_queue := s.action_queue ++ eagerSends s m }

/-- `Node::lazy_push`. -/
def Node.lazy_push (s : Node N M) (m : GossipMessage N M) : Node N M :=
  { s with action_queue := s.action_queue ++ lazySends s m }

/-- `Node::optimize`: if a minimum-round missing entry for the id exists and
the arriving round beats it by at least the threshold 3, graft the faster
path and prune the slower one. -/
def Node.optimize (s : Node N M) (m : GossipMessage N M) : Node N M :=
  match getById m.message_id s.missing with
  | none => s
  | some ihave =>
    if ihave.round < m.round ∧ m.round - ihave.round ≥ 3 then
      { s with
        action_queue := s.action_queue ++
          [Action.send ihave.sender
            (Message.graft ⟨s.node_id, none, ihave.round⟩),
           Action.send m.sender (Message.prune ⟨s.node_id⟩)] }
    else s

/-- `Node::handle_gossip`. -/
def Node.handle_gossip (s : Node N M) (m : GossipMessage N M) : Node N M :=
  if m.message_id ∈ s.received_msgs then
    { s with
      eager_push_peers := listRemove m.sender s.eager_push_peers
      lazy_push_peers := listInsert m.sender s.lazy_push_peers
      action_queue := s.action_queue ++
        [Action.send m.sender (Message.prune ⟨s.node_id⟩)] }
  else
    let s1 : Node N M :=
      { s with
        action_queue := s.action_queue ++ [Action.deliver m.message_id]
        received_msgs := listInsert m.message_id s.received_msgs
        missing := cancelTimer m.message_id s.missing }
    let s2 := s1.eager_push m
    let s3 := s2.lazy_push m
    let s4 : Node N M :=
      { s3 with
        eager_push_peers := listInsert m.sender s3.eager_push_peers
        lazy_push_peers := listRemove m.sender s3.lazy_push_peers }
    s4.optimize m

/-- `Node::handle_ihave`; the tracker registration deadline is modelled from
the spec (fixed repair delay, default one tick). -/
def Node.handle_ihave (s : Node N M) (m : IhaveMessage N M) : Node N M :=
  if m.message_id ∈ s.received_msgs then s
  else { s with missing := s.missing ++ [⟨m.message_id, m.sender, m.round, s.clock + 1⟩] }

/-- `Node::handle_graft`. -/
def Node.handle_graft (s : Node N M) (m : GraftMessage N M) : Node N M :=
  let s1 : Node N M :=
    { s with
      eager_push_peers := listInsert m.sender s.eager_push_peers
      lazy_push_peers := listRemove m.sender s.lazy_push_peers }
  match m.message_id with
  | none => s1
  | some id =>
    if id ∈ s1.received_msgs then
      { s1 with
        action_queue := s1.action_queue ++
          [Action.send m.sender (Message.gossip ⟨s1.node_id, id, m.round⟩)] }
    else s1

/-- `Node::handle_prune`. -/
def Node.handle_prune (s : Node N M) (m : PruneMessage N) : Node N M :=
  { s with
    eager_push_peers := listRemove m.sender s.eager_push_peers
    lazy_push_peers := listInsert m.sender s.lazy_push_peers }

/-- `Node::handle_message`: drop messages from unknown senders, else dispatch. -/
def Node.handle_message (s : Node N M) (msg : Message N M) : Node N M :=
  if s.is_known_node msg.sender then
    match msg with
    | .gossip m => s.handle_gossip m
    | .ihave m => s.handle_ihave m
    | .graft m => s.handle_graft m
    | .prune m => s.handle_prune m
  else s

/-- One iteration of the `handle_tick` repair loop body: the popped entry is
removed; if its sender is still known it is promoted to eager and a `Graft`
is enqueued, otherwise the entry is dropped silently. -/
def tickStep (s : Node N M) (e : MissingEntry N M)
    (rest : List (MissingEntry N M)) : Node N M :=
  if s.is_known_node e.sender then
    { s with
      missing := rest
      eager_push_peers := listInsert e.sender s.eager_push_peers
      lazy_push_peers := listRemove e.sender s.lazy_push_peers
      action_queue := s.action_queue ++
        [Action.send e.sender
          (Message.graft ⟨s.node_id, some e.message_id, e.round⟩)] }
  else { s with missing := rest }

/-- The `while let Some(ihave) = pop_expired(clock)` loop of `handle_tick`,
fuelled by the tracker size (each pop removes one entry, so the fuel is
never the reason the loop stops). -/
def tickLoop : Nat → Node N M → Node N M
  | 0, s => s
  | fuel + 1, s =>
    match popExpired s.clock s.missing with
    | none => s
    | some (e, rest) => tickLoop fuel (tickStep s e rest)

/-- `Node::handle_tick`. -/
def Node.handle_tick (s : Node N M) : Node N M :=
  tickLoop s.missing.length { s with clock := s.clock + 1 }

/-- `Node::poll_action`: pop the FIFO front of the action queue. -/
def Node.poll_action (s : Node N M) : Option (Action N M) × Node N M :=
  match s.action_queue with
  | [] => (none, s)
  | a :: rest => (some a, { s with action_queue := rest })

/-- The actions a transition from `s` to `t` appended to the queue. -/
def newActions (s t : Node N M) : List (Action N M) :=
  t.action_queue.drop s.action_queue.length

/-- The message ids delivered by a list of actions, in order. -/
def deliverActions : List (Action N M) → List M
  | [] => []
  | .deliver x :: rest => x :: deliverActions rest
  | .send _ _ :: rest => deliverActions rest

/-- Every state reachable from `Node.new node_id` by the public operations. -/
inductive Reachable (node_id : N) : Node N M → Prop
  | new : Reachable node_id (Node.new node_id)
  | handle_message (s : Node N M) (msg : Message N M) :
      Reachable node_id s → Reachable node_id (s.handle_message msg)
  | neighbour_up (s : Node N M) (p : N) :
      Reachable node_id s → Reachable node_id (s.handle_neighbour_up p)
  | neighbour_down (s : Node N M) (p : N) :
      Reachable node_id s → Reachable node_id (s.handle_neighbour_down p)
  | forget (s : Node N M) (id : M) :
      Reachable node_id s → Reachable node_id (s.forget_message id)
  | tick (s : Node N M) :
      Reachable node_id s → Reachable node_id s.handle_tick
  | poll (s : Node N M) :
      Reachable node_id s → Reachable node_id s.poll_action.2

/-- Reachability restricted to drivers that never report a neighbour as up
while it sits in the lazy peer set. -/
inductive ReachableG (node_id : N) : Node N M → Prop
  | new : ReachableG node_id (Node.new node_id)
  | handle_message (s : Node N M) (msg : Message N M) :
      ReachableG node_id s → ReachableG node_id (s.handle_message msg)
  | neighbour_up (s : Node N M) (p : N) :
      p ∉ s.lazy_push_peers →
      ReachableG node_id s → ReachableG node_id (s.handle_neighbour_up p)
  | neighbour_down (s : Node N M) (p : N) :
      ReachableG node_id s → ReachableG node_id (s.handle_neighbour_down p)
  | forget (s : Node N M) (id : M) :
      ReachableG node_id s → ReachableG node_id (s.forget_message id)
  | tick (s : Node N M) :
      ReachableG node_id s → ReachableG node_id s.handle_tick
  | poll (s : Node N M) :
      ReachableG node_id s → ReachableG node_id s.poll_action.2

/-- Recognizer for `Send(_, Ihave _)` actions. -/
def isIhaveSend : Action N M → Bool
  | .send _ (.ihave _) => true
  | _ => false

/-- Concrete scenario shared by witnesses: node `0` with eager peers `1`, `2`. -/
def baseW : Node Nat Nat :=
  ((Node.new 0).handle_neighbour_up 1).handle_neighbour_up 2

/-- `baseW` after a first-seen gossip for message `5` from peer `1`. -/
def dupW : Node Nat Nat := baseW.handle_message (Message.gossip ⟨1, 5, 0⟩)

/-- `baseW` after an `Ihave` for message `10` from peer `2` (one outstanding
missing entry). -/
def ihaveW : Node Nat Nat := baseW.handle_message (Message.ihave ⟨2, 10, 0⟩)

/-- `ihaveW` after a gossip for message `10` from peer `1` at round `5`
(the round gap `5 - 0` is at least the optimization threshold `3`). -/
def optW : Node Nat Nat := ihaveW.handle_message (Message.gossip ⟨1, 10, 5⟩)

/-- Reachable state with peer `1` in both peer sets: neighbour up, prune
from `1`, neighbour up again. -/
def nodeC1 : Node Nat Nat :=
  (((Node.new 0).handle_neighbour_up 1).handle_message
    (Message.prune ⟨1⟩)).handle_neighbour_up 1

/-! ### Basic lemmas about the set and tracker models -/

theorem mem_listInsert [DecidableEq α] {a x : α} {l : List α} :
    x ∈ listInsert a l ↔ x = a ∨ x ∈ l := by
  unfold listInsert
  by_cases h : a ∈ l
  · simp only [if_pos h]
    constructor
    · exact Or.inr
    · rintro (rfl | hx)
      · exact h
      · exact hx
  · simp only [if_neg h, List.mem_append, List.mem_singleton]
    exact or_comm

theorem mem_listRemove [DecidableEq α] {a x : α} {l : List α} :
    x ∈ listRemove a l ↔ x ∈ l ∧ x ≠ a := by
  unfold listRemove
  simp [List.mem_filter]

theorem self_mem_listInsert [DecidableEq α] (a : α) (l : List α) :
    a ∈ listInsert a l :=
  mem_listInsert.mpr (Or.inl rfl)

theorem self_not_mem_listRemove [DecidableEq α] (a : α) (l : List α) :
    a ∉ listRemove a l := by
  intro h
  exact (mem_listRemove.mp h).2 rfl

theorem mem_cancelTimer {id : M} {l : List (MissingEntry N M)}
    {e : MissingEntry N M} :
    e ∈ cancelTimer id l ↔ e ∈ l ∧ e.message_id ≠ id := by
  unfold cancelTimer
  simp [List.mem_filter]

theorem getById_eq_none_of_all {id : M} {l : List (MissingEntry N M)}
    (h : ∀ e ∈ l, e.message_id ≠ id) : getById id l = none := by
  induction l with
  | nil => rfl
  | cons e rest ih =>
    unfold getById
    rw [ih (fun x hx => h x (List.mem_cons_of_mem e hx))]
    simp [h e (List.mem_cons_self e rest)]

theorem getById_cancelTimer (id : M) (l : List (MissingEntry N M)) :
    getById id (cancelTimer id l) = none :=
  getById_eq_none_of_all (fun _ he => (mem_cancelTimer.mp he).2)

theorem newActions_of_append {s t : Node N M} {l : List (Action N M)}
    (h : t.action_queue = s.action_queue ++ l) : newActions s t = l := by
  unfold newActions
  rw [h, List.drop_left]

/-! ### Characterization of `handle_gossip` on both branches -/

theorem handle_gossip_dup (s : Node N M) (m : GossipMessage N M)
    (hd : m.message_id ∈ s.received_msgs) :
    s.handle_gossip m =
      { s with
        eager_push_peers := listRemove m.sender s.eager_push_peers
        lazy_push_peers := listInsert m.sender s.lazy_push_peers
        action_queue := s.action_queue ++
          [Action.send m.sender (Message.prune ⟨s.node_id⟩)] } := by
  unfold Node.handle_gossip
  rw [if_pos hd]

theorem handle_gossip_fresh (s : Node N M) (m : GossipMessage N M)
    (hf : m.message_id ∉ s.received_msgs) :
    s.handle_gossip m =
      { s with
        eager_push_peers := listInsert m.sender s.eager_push_peers
        lazy_push_peers := listRemove m.sender s.lazy_push_peers
        missing := cancelTimer m.message_id s.missing
        received_msgs := listInsert m.message_id s.received_msgs
        action_queue := s.action_queue ++
          (Action.deliver m.message_id :: (eagerSends s m ++ lazySends s m)) } := by
  unfold Node.handle_gossip
  rw [if_neg hf]
  show Node.optimize _ m = _
  simp only [Node.eager_push, Node.lazy_push, Node.optimize, eagerSends, lazySends]
  rw [getById_cancelTimer]
  simp [List.append_assoc]

/-! ### Dispatch lemmas for `handle_message` -/

theorem handle_message_gossip {s : Node N M} {m : GossipMessage N M}
    (hk : s.is_known_node m.sender) :
    s.handle_message (Message.gossip m) = s.handle_gossip m := by
  simp [Node.handle_message, Message.sender, hk]

theorem handle_message_ihave {s : Node N M} {m : IhaveMessage N M}
    (hk : s.is_known_node m.sender) :
    s.handle_message (Message.ihave m) = s.handle_ihave m := by
  simp [Node.handle_message, Message.sender, hk]

theorem handle_message_graft {s : Node N M} {m : GraftMessage N M}
    (hk : s.is_known_node m.sender) :
    s.handle_message (Message.graft m) = s.handle_graft m := by
  simp [Node.handle_message, Message.sender, hk]

theorem handle_message_prune {s : Node N M} {m : PruneMessage N}
    (hk : s.is_known_node m.sender) :
    s.handle_message (Message.prune m) = s.handle_prune m := by
  simp [Node.handle_message, Message.sender, hk]

theorem handle_message_not_known {s : Node N M} {msg : Message N M}
    (h : ¬ s.is_known_node msg.sender) : s.handle_message msg = s := by
  unfold Node.handle_message
  rw [if_neg h]

/-! ### Saturating-round and action-list lemmas -/

theorem satAdd1_of_lt {r : Nat} (h : r < u64MAX) : satAdd1 r = r + 1 :=
  min_eq_left (Nat.succ_le_of_lt h)

theorem satAdd1_max : satAdd1 u64MAX = u64MAX := by
  unfold satAdd1
  exact min_eq_right (Nat.le_succ _)

theorem satAdd1_cases {r : Nat} (hu : r ≤ u64MAX) :
    satAdd1 r = if r < u64MAX then r + 1 else u64MAX := by
  by_cases h : r < u64MAX
  · rw [if_pos h, satAdd1_of_lt h]
  · rw [if_neg h]
    have hr : r = u64MAX := Nat.le_antisymm hu (Nat.le_of_not_lt h)
    rw [hr, satAdd1_max]

theorem deliverActions_append (l1 l2 : List (Action N M)) :
    deliverActions (l1 ++ l2) = deliverActions l1 ++ deliverActions l2 := by
  induction l1 with
  | nil => rfl
  | cons a rest ih =>
    cases a <;> simp [deliverActions, ih]

theorem deliverActions_map_send {α : Type} (f : α → N) (g : α → Message N M)
    (l : List α) :
    deliverActions (l.map fun x => Action.send (f x) (g x)) = [] := by
  induction l with
  | nil => rfl
  | cons a rest ih => simpa [deliverActions] using ih

theorem filter_map_eq_nil {α β : Type} {p : β → Bool} {f : α → β}
    (h : ∀ a, p (f a) = false) (l : List α) : (l.map f).filter p = [] := by
  induction l with
  | nil => rfl
  | cons a rest ih => simp [h, ih]

theorem filter_map_eq_self {α β : Type} {p : β → Bool} {f : α → β}
    (h : ∀ a, p (f a) = true) (l : List α) : (l.map f).filter p = l.map f := by
  induction l with
  | nil => rfl
  | cons a rest ih => simp [h, ih]

/-- Shared description of the effects of a first-seen gossip from a known
peer: one delivery, membership in `received_msgs`, all entries for the id
cancelled, the sender promoted to eager. -/
theorem gossip_fresh_effects (s : Node N M) (m : GossipMessage N M)
    (hk : s.is_known_node m.sender) (hf : m.message_id ∉ s.received_msgs) :
    deliverActions (newActions s (s.handle_message (Message.gossip m))) =
      [m.message_id] ∧
    m.message_id ∈ (s.handle_message (Message.gossip m)).received_msgs ∧
    (∀ e ∈ (s.handle_message (Message.gossip m)).missing,
      e.message_id ≠ m.message_id) ∧
    m.sender ∈ (s.handle_message (Message.gossip m)).eager_push_peers ∧
    m.sender ∉ (s.handle_message (Message.gossip m)).lazy_push_peers := by
  rw [handle_message_gossip hk, handle_gossip_fresh s m hf]
  refine ⟨?_, ?_, ?_, ?_, ?_⟩
  · rw [newActions_of_append rfl]
    simp only [deliverActions, deliverActions_append, eagerSends, lazySends,
      deliverActions_map_send]
    rfl
  · exact self_mem_listInsert _ _
  · intro e he
    exact (mem_cancelTimer.mp he).2
  · exact self_mem_listInsert _ _
  · exact self_not_mem_listRemove _ _

/-! ### Claim theorems: gossip handling -/

/-- C4: a first-seen Gossip from a known peer yields exactly one
`Deliver(m.message_id)` action, inserts the id into `received_msgs`, cancels
every missing-message entry for that id, and moves the sender into
`eager_push_peers` (removing it from `lazy_push_peers`). -/
theorem first_seen_gossip_delivers (s : Node N M) (m : GossipMessage N M)
    (hk : s.is_known_node m.sender) (hf : m.message_id ∉ s.received_msgs) :
    deliverActions (newActions s (s.handle_message (Message.gossip m))) =
      [m.message_id] ∧
    m.message_id ∈ (s.handle_message (Message.gossip m)).received_msgs ∧
    (∀ e ∈ (s.handle_message (Message.gossip m)).missing,
      e.message_id ≠ m.message_id) ∧
    m.sender ∈ (s.handle_message (Message.gossip m)).eager_push_peers ∧
    m.sender ∉ (s.handle_message (Message.gossip m)).lazy_push_peers :=
  gossip_fresh_effects s m hk hf

/-- Witness for C4 at the concrete scenario `baseW`. -/
theorem first_seen_gossip_delivers_witness :
    deliverActions (newActions baseW
      (baseW.handle_message (Message.gossip ⟨1, 5, 0⟩))) = [5] ∧
    (5 : Nat) ∈ (baseW.handle_message (Message.gossip ⟨1, 5, 0⟩)).received_msgs :=
  ⟨(first_seen_gossip_delivers baseW ⟨1, 5, 0⟩ (by decide) (by decide)).1,
   (first_seen_gossip_delivers baseW ⟨1, 5, 0⟩ (by decide) (by decide)).2.1⟩

/-- C5: a duplicate Gossip from a known peer appends exactly one action —
`Send(m.sender, Prune{sender: self})` — delivering nothing, and demotes the
sender from eager to lazy. -/
theorem duplicate_gossip_prunes (s : Node N M) (m : GossipMessage N M)
    (hk : s.is_known_node m.sender) (hd : m.message_id ∈ s.received_msgs) :
    newActions s (s.handle_message (Message.gossip m)) =
      [Action.send m.sender (Message.prune ⟨s.node_id⟩)] ∧
    m.sender ∉ (s.handle_message (Message.gossip m)).eager_push_peers ∧
    m.sender ∈ (s.handle_message (Message.gossip m)).lazy_push_peers := by
  rw [handle_message_gossip hk, handle_gossip_dup s m hd]
  exact ⟨newActions_of_append rfl, self_not_mem_listRemove _ _,
    self_mem_listInsert _ _⟩

/-- Witness for C5: replaying the gossip for message `5` against `dupW`. -/
theorem duplicate_gossip_prunes_witness :
    newActions dupW (dupW.handle_message (Message.gossip ⟨1, 5, 0⟩)) =
      [Action.send 1 (Message.prune ⟨0⟩)] ∧
    (1 : Nat) ∉ (dupW.handle_message (Message.gossip ⟨1, 5, 0⟩)).eager_push_peers ∧
    (1 : Nat) ∈ (dupW.handle_message (Message.gossip ⟨1, 5, 0⟩)).lazy_push_peers :=
  duplicate_gossip_prunes dupW ⟨1, 5, 0⟩ (by decide) (by decide)

/-- C6: on a first-seen Gossip the `Ihave` announcements appended by
`handle_message` target exactly the peers of the *eager* set other than the
sender — the source iterates `eager_push_peers` in `lazy_push`. -/
theorem lazy_push_targets_eager_set (s : Node N M) (m : GossipMessage N M)
    (hk : s.is_known_node m.sender) (hf : m.message_id ∉ s.received_msgs)
    (hr : m.round < u64MAX) :
    (newActions s (s.handle_message (Message.gossip m))).filter isIhaveSend =
      (s.eager_push_peers.filter (fun p => decide (p ≠ m.sender))).map
        (fun p => Action.send p
          (Message.ihave ⟨s.node_id, m.message_id, m.round + 1⟩)) := by
  rw [handle_message_gossip hk, handle_gossip_fresh s m hf,
    newActions_of_append rfl]
  have h1 : ((Action.deliver m.message_id : Action N M) ::
      (eagerSends s m ++ lazySends s m)).filter isIhaveSend =
      (eagerSends s m).filter isIhaveSend ++
      (lazySends s m).filter isIhaveSend := by
    simp [isIhaveSend]
  have h2 : (eagerSends s m).filter isIhaveSend = [] := by
    unfold eagerSends
    exact filter_map_eq_nil (fun p => rfl) _
  have h3 : (lazySends s m).filter isIhaveSend = lazySends s m := by
    unfold lazySends
    exact filter_map_eq_self (fun p => rfl) _
  rw [h1, h2, h3, List.nil_append]
  unfold lazySends
  rw [satAdd1_of_lt hr]

/-- Witness for C6 at `baseW`: the announcement goes to eager peer `2` only. -/
theorem lazy_push_targets_eager_set_witness :
    (newActions baseW
      (baseW.handle_message (Message.gossip ⟨1, 5, 0⟩))).filter isIhaveSend =
      (baseW.eager_push_peers.filter (fun p => decide (p ≠ 1))).map
        (fun p => Action.send p (Message.ihave ⟨0, 5, 1⟩)) :=
  lazy_push_targets_eager_set baseW ⟨1, 5, 0⟩ (by decide) (by decide) (by decide)

/-- C7: a message whose sender is in neither peer set leaves the whole node
state unchanged and enqueues nothing. -/
theorem unknown_sender_ignored (s : Node N M) (msg : Message N M)
    (h : ¬ s.is_known_node msg.sender) : s.handle_message msg = s :=
  handle_message_not_known h

/-- Witness for C7: a fresh node ignores a prune from the unknown peer `1`. -/
theorem unknown_sender_ignored_witness :
    (Node.new 0 : Node Nat Nat).handle_message (Message.prune ⟨1⟩) =
      Node.new 0 :=
  unknown_sender_ignored _ _ (by decide)

/-- C8: after `handle_neighbour_down p`, `p` is in neither peer set and no
missing-message entry with sender `p` remains. -/
theorem neighbour_down_purges (s : Node N M) (p : N) :
    p ∉ (s.handle_neighbour_down p).eager_push_peers ∧
    p ∉ (s.handle_neighbour_down p).lazy_push_peers ∧
    ∀ e ∈ (s.handle_neighbour_down p).missing, e.sender ≠ p := by
  refine ⟨self_not_mem_listRemove p _, self_not_mem_listRemove p _, ?_⟩
  intro e he
  have : e ∈ s.missing.filter (fun e => decide (e.sender ≠ p)) := he
  simp only [List.mem_filter, decide_eq_true_eq] at this
  exact this.2

/-- Witness for C8: dropping peer `2` from `ihaveW` clears it from both peer
sets and purges its missing entry. -/
theorem neighbour_down_purges_witness :
    (2 : Nat) ∉ (ihaveW.handle_neighbour_down 2).eager_push_peers ∧
    (2 : Nat) ∉ (ihaveW.handle_neighbour_down 2).lazy_push_peers ∧
    ∀ e ∈ (ihaveW.handle_neighbour_down 2).missing, e.sender ≠ 2 :=
  neighbour_down_purges ihaveW 2

/-- C9: forgetting a delivered message id and replaying the identical first
gossip reproduces the first-seen behavior: one `Deliver` and the id is back
in `received_msgs`. -/
theorem forget_then_replay_first_seen (s : Node N M) (sender : N) (mid : M)
    (r : Nat) (h1 : mid ∈ s.received_msgs) (hk : s.is_known_node sender) :
    deliverActions (newActions (s.forget_message mid)
      ((s.forget_message mid).handle_message
        (Message.gossip ⟨sender, mid, r⟩))) = [mid] ∧
    mid ∈ ((s.forget_message mid).handle_message
      (Message.gossip ⟨sender, mid, r⟩)).received_msgs := by
  have hk0 : (s.forget_message mid).is_known_node sender := hk
  have hf : mid ∉ (s.forget_message mid).received_msgs :=
    self_not_mem_listRemove _ _
  have h := gossip_fresh_effects (s.forget_message mid) ⟨sender, mid, r⟩ hk0 hf
  exact ⟨h.1, h.2.1⟩

/-- Witness for C9: forget message `5` on `dupW` and replay its gossip. -/
theorem forget_then_replay_first_seen_witness :
    deliverActions (newActions (dupW.forget_message 5)
      ((dupW.forget_message 5).handle_message
        (Message.gossip ⟨1, 5, 0⟩))) = [5] ∧
    (5 : Nat) ∈ ((dupW.forget_message 5).handle_message
      (Message.gossip ⟨1, 5, 0⟩)).received_msgs :=
  forget_then_replay_first_seen dupW 1 5 0 (by decide) (by decide)

/-- C10: every Gossip or Ihave forwarded on a first-seen gossip carries round
`m.round + 1` when `m.round < u64::MAX` and round `u64::MAX` when
`m.round = u64::MAX` — saturating, never wrapping. -/
theorem forward_round_saturates (s : Node N M) (m : GossipMessage N M)
    (hu : m.round ≤ u64MAX) (hk : s.is_known_node m.sender)
    (hf : m.message_id ∉ s.received_msgs) :
    ∀ a ∈ newActions s (s.handle_message (Message.gossip m)),
      (∀ p g, a = Action.send p (Message.gossip g) →
        g.round = if m.round < u64MAX then m.round + 1 else u64MAX) ∧
      (∀ p i, a = Action.send p (Message.ihave i) →
        i.round = if m.round < u64MAX then m.round + 1 else u64MAX) := by
  rw [handle_message_gossip hk, handle_gossip_fresh s m hf,
    newActions_of_append rfl]
  intro a ha
  rw [← satAdd1_cases hu]
  rcases List.mem_cons.mp ha with rfl | ha2
  · exact ⟨fun p g hg => (by cases hg), fun p i hi => (by cases hi)⟩
  rcases List.mem_append.mp ha2 with hae | hal
  · unfold eagerSends at hae
    rcases List.mem_map.mp hae with ⟨q, hq, rfl⟩
    refine ⟨fun p g hg => ?_, fun p i hi => ?_⟩
    · cases hg
      rfl
    · simp at hi
  · unfold lazySends at hal
    rcases List.mem_map.mp hal with ⟨q, hq, rfl⟩
    refine ⟨fun p g hg => ?_, fun p i hi => ?_⟩
    · simp at hg
    · cases hi
      rfl

/-- Witness for C10 at the saturation point: a gossip arriving at round
`u64::MAX` is announced onward still at round `u64::MAX`. -/
theorem forward_round_saturates_witness :
    u64MAX = if u64MAX < u64MAX then u64MAX + 1 else u64MAX :=
  (forward_round_saturates baseW ⟨1, 5, u64MAX⟩ (by decide) (by decide)
      (by decide) (Action.send 2 (Message.ihave ⟨0, 5, u64MAX⟩)) (by decide)).2
    2 ⟨0, 5, u64MAX⟩ rfl

/-! ### Lemmas on the tick repair loop -/

theorem popExpired_perm {now : Nat} :
    ∀ {l rest : List (MissingEntry N M)} {e : MissingEntry N M},
    popExpired now l = some (e, rest) → l.Perm (e :: rest) := by
  intro l
  induction l with
  | nil =>
    intro rest e h
    cases h
  | cons x xs ih =>
    intro rest e h
    unfold popExpired at h
    cases hx : popExpired now xs with
    | none =>
      simp only [hx] at h
      by_cases hd : x.deadline ≤ now
      · rw [if_pos hd] at h
        simp only [Option.some.injEq, Prod.mk.injEq] at h
        obtain ⟨rfl, rfl⟩ := h
        exact List.Perm.refl _
      · rw [if_neg hd] at h
        cases h
    | some pr =>
      obtain ⟨e2, rest2⟩ := pr
      simp only [hx] at h
      by_cases hc : x.deadline ≤ now ∧ x.deadline ≤ e2.deadline
      · rw [if_pos hc] at h
        simp only [Option.some.injEq, Prod.mk.injEq] at h
        obtain ⟨rfl, rfl⟩ := h
        exact List.Perm.refl _
      · rw [if_neg hc] at h
        simp only [Option.some.injEq, Prod.mk.injEq] at h
        obtain ⟨rfl, rfl⟩ := h
        exact ((ih hx).cons x).trans (List.Perm.swap e2 x rest2)

theorem popExpired_deadline {now : Nat} :
    ∀ {l rest : List (MissingEntry N M)} {e : MissingEntry N M},
    popExpired now l = some (e, rest) → e.deadline ≤ now := by
  intro l
  induction l with
  | nil =>
    intro rest e h
    cases h
  | cons x xs ih =>
    intro rest e h
    unfold popExpired at h
    cases hx : popExpired now xs with
    | none =>
      simp only [hx] at h
      by_cases hd : x.deadline ≤ now
      · rw [if_pos hd] at h
        simp only [Option.some.injEq, Prod.mk.injEq] at h
        obtain ⟨rfl, -⟩ := h
        exact hd
      · rw [if_neg hd] at h
        cases h
    | some pr =>
      obtain ⟨e2, rest2⟩ := pr
      simp only [hx] at h
      by_cases hc : x.deadline ≤ now ∧ x.deadline ≤ e2.deadline
      · rw [if_pos hc] at h
        simp only [Option.some.injEq, Prod.mk.injEq] at h
        obtain ⟨rfl, -⟩ := h
        exact hc.1
      · rw [if_neg hc] at h
        simp only [Option.some.injEq, Prod.mk.injEq] at h
        obtain ⟨rfl, -⟩ := h
        exact ih hx

theorem popExpired_none {now : Nat} :
    ∀ {l : List (MissingEntry N M)}, popExpired now l = none →
    ∀ e ∈ l, ¬ e.deadline ≤ now := by
  intro l
  induction l with
  | nil =>
    intro _ e he
    cases he
  | cons x xs ih =>
    intro h e he
    unfold popExpired at h
    cases hx : popExpired now xs with
    | none =>
      simp only [hx] at h
      by_cases hd : x.deadline ≤ now
      · rw [if_pos hd] at h
        cases h
      · rw [if_neg hd] at h
        rcases List.mem_cons.mp he with rfl | he2
        · exact hd
        · exact ih hx e he2
    | some pr =>
      obtain ⟨e2, rest2⟩ := pr
      simp only [hx] at h
      by_cases hc : x.deadline ≤ now ∧ x.deadline ≤ e2.deadline
      · rw [if_pos hc] at h
        cases h
      · rw [if_neg hc] at h
        cases h

theorem tickStep_node_id (s : Node N M) (e : MissingEntry N M)
    (rest : List (MissingEntry N M)) :
    (tickStep s e rest).node_id = s.node_id := by
  unfold tickStep
  split <;> rfl

theorem tickStep_clock (s : Node N M) (e : MissingEntry N M)
    (rest : List (MissingEntry N M)) :
    (tickStep s e rest).clock = s.clock := by
  unfold tickStep
  split <;> rfl

theorem tickStep_missing (s : Node N M) (e : MissingEntry N M)
    (rest : List (MissingEntry N M)) :
    (tickStep s e rest).missing = rest := by
  unfold tickStep
  split <;> rfl

theorem tickStep_known (s : Node N M) (e : MissingEntry N M)
    (rest : List (MissingEntry N M)) (p : N) :
    (tickStep s e rest).is_known_node p ↔ s.is_known_node p := by
  unfold tickStep
  split
  · rename_i hk
    unfold Node.is_known_node
    simp only [mem_listInsert, mem_listRemove]
    constructor
    · rintro (h | h)
      · rcases h with rfl | h
        · exact hk
        · exact Or.inl h
      · exact Or.inr h.1
    · rintro (h | h)
      · exact Or.inl (Or.inr h)
      · by_cases hp : p = e.sender
        · subst hp
          exact Or.inl (Or.inl rfl)
        · exact Or.inr ⟨h, hp⟩
  · exact Iff.rfl

theorem tickStep_eager_mono {s : Node N M} {e : MissingEntry N M}
    {rest : List (MissingEntry N M)} {p : N} (h : p ∈ s.eager_push_peers) :
    p ∈ (tickStep s e rest).eager_push_peers := by
  unfold tickStep
  split
  · exact mem_listInsert.mpr (Or.inr h)
  · exact h

theorem tickStep_lazy_not {s : Node N M} {e : MissingEntry N M}
    {rest : List (MissingEntry N M)} {p : N} (h : p ∉ s.lazy_push_peers) :
    p ∉ (tickStep s e rest).lazy_push_peers := by
  unfold tickStep
  split
  · intro hmem
    exact h (mem_listRemove.mp hmem).1
  · exact h

theorem tickStep_queue_mono {s : Node N M} {e : MissingEntry N M}
    {rest : List (MissingEntry N M)} {a : Action N M}
    (h : a ∈ s.action_queue) : a ∈ (tickStep s e rest).action_queue := by
  unfold tickStep
  split
  · exact List.mem_append_left _ h
  · exact h

theorem tickLoop_succ_none {n : Nat} {s : Node N M}
    (hp : popExpired s.clock s.missing = none) : tickLoop (n + 1) s = s := by
  have h0 : tickLoop (n + 1) s = (match popExpired s.clock s.missing with
      | none => s
      | some (e, rest) => tickLoop n (tickStep s e rest)) := rfl
  rw [h0, hp]

theorem tickLoop_succ_some {n : Nat} {s : Node N M} {e : MissingEntry N M}
    {rest : List (MissingEntry N M)}
    (hp : popExpired s.clock s.missing = some (e, rest)) :
    tickLoop (n + 1) s = tickLoop n (tickStep s e rest) := by
  have h0 : tickLoop (n + 1) s = (match popExpired s.clock s.missing with
      | none => s
      | some (e, rest) => tickLoop n (tickStep s e rest)) := rfl
  rw [h0, hp]

theorem tickLoop_clock (fuel : Nat) :
    ∀ s : Node N M, (tickLoop fuel s).clock = s.clock := by
  induction fuel with
  | zero => intro s; rfl
  | succ n ih =>
    intro s
    cases hp : popExpired s.clock s.missing with
    | none => rw [tickLoop_succ_none hp]
    | some pr =>
      obtain ⟨e, rest⟩ := pr
      rw [tickLoop_succ_some hp, ih, tickStep_clock]

theorem tickLoop_node_id (fuel : Nat) :
    ∀ s : Node N M, (tickLoop fuel s).node_id = s.node_id := by
  induction fuel with
  | zero => intro s; rfl
  | succ n ih =>
    intro s
    cases hp : popExpired s.clock s.missing with
    | none => rw [tickLoop_succ_none hp]
    | some pr =>
      obtain ⟨e, rest⟩ := pr
      rw [tickLoop_succ_some hp, ih, tickStep_node_id]

theorem tickLoop_eager_mono (fuel : Nat) :
    ∀ {s : Node N M} {p : N}, p ∈ s.eager_push_peers →
    p ∈ (tickLoop fuel s).eager_push_peers := by
  induction fuel with
  | zero => intro s p h; exact h
  | succ n ih =>
    intro s p h
    cases hp : popExpired s.clock s.missing with
    | none =>
      rw [tickLoop_succ_none hp]
      exact h
    | some pr =>
      obtain ⟨e, rest⟩ := pr
      rw [tickLoop_succ_some hp]
      exact ih (tickStep_eager_mono h)

theorem tickLoop_lazy_not (fuel : Nat) :
    ∀ {s : Node N M} {p : N}, p ∉ s.lazy_push_peers →
    p ∉ (tickLoop fuel s).lazy_push_peers := by
  induction fuel with
  | zero => intro s p h; exact h
  | succ n ih =>
    intro s p h
    cases hp : popExpired s.clock s.missing with
    | none =>
      rw [tickLoop_succ_none hp]
      exact h
    | some pr =>
      obtain ⟨e, rest⟩ := pr
      rw [tickLoop_succ_some hp]
      exact ih (tickStep_lazy_not h)

theorem tickLoop_queue_mono (fuel : Nat) :
    ∀ {s : Node N M} {a : Action N M}, a ∈ s.action_queue →
    a ∈ (tickLoop fuel s).action_queue := by
  induction fuel with
  | zero => intro s a h; exact h
  | succ n ih =>
    intro s a h
    cases hp : popExpired s.clock s.missing with
    | none =>
      rw [tickLoop_succ_none hp]
      exact h
    | some pr =>
      obtain ⟨e, rest⟩ := pr
      rw [tickLoop_succ_some hp]
      exact ih (tickStep_queue_mono h)

theorem tickLoop_promotes (fuel : Nat) :
    ∀ s : Node N M, s.missing.length ≤ fuel →
    ∀ e ∈ s.missing, e.deadline ≤ s.clock → s.is_known_node e.sender →
    e.sender ∈ (tickLoop fuel s).eager_push_peers ∧
    e.sender ∉ (tickLoop fuel s).lazy_push_peers ∧
    Action.send e.sender
        (Message.graft ⟨s.node_id, some e.message_id, e.round⟩) ∈
      (tickLoop fuel s).action_queue := by
  induction fuel with
  | zero =>
    intro s hlen e hm _ _
    rw [List.length_eq_zero.mp (Nat.le_zero.mp hlen)] at hm
    cases hm
  | succ n ih =>
    intro s hlen e hm hd hk
    cases hp : popExpired s.clock s.missing with
    | none => exact absurd hd (popExpired_none hp e hm)
    | some pr =>
      obtain ⟨e0, rest⟩ := pr
      rw [tickLoop_succ_some hp]
      have hperm := popExpired_perm hp
      have hlen2 : rest.length ≤ n := by
        have := hperm.length_eq
        simp only [List.length_cons] at this
        omega
      rcases List.mem_cons.mp (hperm.mem_iff.mp hm) with rfl | hrest
      · have h1 : e.sender ∈ (tickStep s e rest).eager_push_peers := by
          unfold tickStep
          rw [if_pos hk]
          exact self_mem_listInsert _ _
        have h2 : e.sender ∉ (tickStep s e rest).lazy_push_peers := by
          unfold tickStep
          rw [if_pos hk]
          exact self_not_mem_listRemove _ _
        have h3 : Action.send e.sender
            (Message.graft ⟨s.node_id, some e.message_id, e.round⟩) ∈
            (tickStep s e rest).action_queue := by
          unfold tickStep
          rw [if_pos hk]
          exact List.mem_append_right _ (List.mem_singleton.mpr rfl)
        exact ⟨tickLoop_eager_mono n h1, tickLoop_lazy_not n h2,
          tickLoop_queue_mono n h3⟩
      · have hm2 : e ∈ (tickStep s e0 rest).missing := by
          rw [tickStep_missing]
          exact hrest
        have hlen3 : (tickStep s e0 rest).missing.length ≤ n := by
          rw [tickStep_missing]
          exact hlen2
        have hd2 : e.deadline ≤ (tickStep s e0 rest).clock := by
          rw [tickStep_clock]
          exact hd
        have hk2 : (tickStep s e0 rest).is_known_node e.sender :=
          (tickStep_known s e0 rest e.sender).mpr hk
        have := ih (tickStep s e0 rest) hlen3 e hm2 hd2 hk2
        rw [tickStep_node_id] at this
        exact this

theorem tickLoop_unknown_frame (fuel : Nat) :
    ∀ s : Node N M, s.missing.length ≤ fuel →
    (∀ e ∈ s.missing, e.deadline ≤ s.clock → ¬ s.is_known_node e.sender) →
    (tickLoop fuel s).eager_push_peers = s.eager_push_peers ∧
    (tickLoop fuel s).lazy_push_peers = s.lazy_push_peers ∧
    (tickLoop fuel s).action_queue = s.action_queue := by
  induction fuel with
  | zero =>
    intro s _ _
    exact ⟨rfl, rfl, rfl⟩
  | succ n ih =>
    intro s hlen hunk
    cases hp : popExpired s.clock s.missing with
    | none =>
      rw [tickLoop_succ_none hp]
      exact ⟨rfl, rfl, rfl⟩
    | some pr =>
      obtain ⟨e0, rest⟩ := pr
      rw [tickLoop_succ_some hp]
      have hperm := popExpired_perm hp
      have hno : ¬ s.is_known_node e0.sender :=
        hunk e0 (hperm.mem_iff.mpr (List.mem_cons_self e0 rest))
          (popExpired_deadline hp)
      have hstep : tickStep s e0 rest = { s with missing := rest } := by
        unfold tickStep
        rw [if_neg hno]
      have hlen2 : ({ s with missing := rest } : Node N M).missing.length ≤ n := by
        have := hperm.length_eq
        simp only [List.length_cons] at this
        show rest.length ≤ n
        omega
      have hunk2 : ∀ e ∈ ({ s with missing := rest } : Node N M).missing,
          e.deadline ≤ ({ s with missing := rest } : Node N M).clock →
          ¬ ({ s with missing := rest } : Node N M).is_known_node e.sender := by
        intro e he hd
        exact hunk e (hperm.mem_iff.mpr (List.mem_cons_of_mem e0 he)) hd
      have := ih { s with missing := rest } hlen2 hunk2
      rw [hstep]
      exact this

theorem tickLoop_drains (fuel : Nat) :
    ∀ s : Node N M, s.missing.length ≤ fuel →
    ∀ e ∈ (tickLoop fuel s).missing, ¬ e.deadline ≤ s.clock := by
  induction fuel with
  | zero =>
    intro s hlen e hm
    rw [show tickLoop 0 s = s from rfl, List.length_eq_zero.mp
      (Nat.le_zero.mp hlen)] at hm
    cases hm
  | succ n ih =>
    intro s hlen e hm
    cases hp : popExpired s.clock s.missing with
    | none =>
      rw [tickLoop_succ_none hp] at hm
      exact popExpired_none hp e hm
    | some pr =>
      obtain ⟨e0, rest⟩ := pr
      rw [tickLoop_succ_some hp] at hm
      have hperm := popExpired_perm hp
      have hlen2 : (tickStep s e0 rest).missing.length ≤ n := by
        rw [tickStep_missing]
        have := hperm.length_eq
        simp only [List.length_cons] at this
        omega
      have := ih (tickStep s e0 rest) hlen2 e hm
      rw [tickStep_clock] at this
      exact this

/-- C3: `handle_tick` advances the clock by exactly one; every entry that is
expired at the new clock is promoted-and-grafted when its sender is known;
when every expired entry has an unknown sender the peer sets and the queue
are untouched; and no expired entry survives in the tracker. -/
theorem handle_tick_spec (s : Node N M) :
    s.handle_tick.clock = s.clock + 1 ∧
    (∀ e ∈ s.missing, e.deadline ≤ s.clock + 1 → s.is_known_node e.sender →
      e.sender ∈ s.handle_tick.eager_push_peers ∧
      e.sender ∉ s.handle_tick.lazy_push_peers ∧
      Action.send e.sender
          (Message.graft ⟨s.node_id, some e.message_id, e.round⟩) ∈
        s.handle_tick.action_queue) ∧
    ((∀ e ∈ s.missing, e.deadline ≤ s.clock + 1 → ¬ s.is_known_node e.sender) →
      s.handle_tick.eager_push_peers = s.eager_push_peers ∧
      s.handle_tick.lazy_push_peers = s.lazy_push_peers ∧
      s.handle_tick.action_queue = s.action_queue) ∧
    (∀ e ∈ s.handle_tick.missing, ¬ e.deadline ≤ s.clock + 1) := by
  refine ⟨?_, ?_, ?_, ?_⟩
  · exact tickLoop_clock s.missing.length _
  · intro e hm hd hk
    exact tickLoop_promotes s.missing.length
      { s with clock := s.clock + 1 } (Nat.le_refl _) e hm hd hk
  · intro hunk
    exact tickLoop_unknown_frame s.missing.length
      { s with clock := s.clock + 1 } (Nat.le_refl _) hunk
  · intro e hm
    exact tickLoop_drains s.missing.length
      { s with clock := s.clock + 1 } (Nat.le_refl _) e hm

/-- Witness for C3: ticking `ihaveW` expires its one entry, promotes its
known sender `2` and grafts it. -/
theorem handle_tick_spec_witness :
    ihaveW.handle_tick.clock = ihaveW.clock + 1 ∧
    (2 : Nat) ∈ ihaveW.handle_tick.eager_push_peers ∧
    Action.send 2 (Message.graft ⟨0, some 10, 0⟩) ∈
      ihaveW.handle_tick.action_queue :=
  ⟨(handle_tick_spec ihaveW).1,
   ((handle_tick_spec ihaveW).2.1 ⟨10, 2, 0, 1⟩ (by decide) (by decide)
     (by decide)).1,
   ((handle_tick_spec ihaveW).2.1 ⟨10, 2, 0, 1⟩ (by decide) (by decide)
     (by decide)).2.2⟩

/-! ### Peer-set shape lemmas for the remaining handlers -/

theorem not_mem_listInsert_of [DecidableEq α] {p x : α} {l : List α}
    (hx : x ∉ l) (hne : x ≠ p) : x ∉ listInsert p l := by
  intro hmem
  rcases mem_listInsert.mp hmem with h1 | h1
  · exact hne h1
  · exact hx h1

theorem not_mem_listRemove_of [DecidableEq α] {p x : α} {l : List α}
    (hx : x ∉ l) : x ∉ listRemove p l := by
  intro hmem
  exact hx (mem_listRemove.mp hmem).1

theorem disjoint_promote [DecidableEq α] {eager lazy : List α}
    (h : ∀ p ∈ eager, p ∉ lazy) (q : α) :
    ∀ p ∈ listInsert q eager, p ∉ listRemove q lazy := by
  intro p hp hpl
  have h2 := mem_listRemove.mp hpl
  rcases mem_listInsert.mp hp with h1 | h1
  · exact h2.2 h1
  · exact h p h1 h2.1

theorem disjoint_demote [DecidableEq α] {eager lazy : List α}
    (h : ∀ p ∈ eager, p ∉ lazy) (q : α) :
    ∀ p ∈ listRemove q eager, p ∉ listInsert q lazy := by
  intro p hp hpl
  have h1 := mem_listRemove.mp hp
  rcases mem_listInsert.mp hpl with h2 | h2
  · exact h1.2 h2
  · exact h p h1.1 h2

theorem handle_gossip_node_id (s : Node N M) (m : GossipMessage N M) :
    (s.handle_gossip m).node_id = s.node_id := by
  by_cases hd : m.message_id ∈ s.received_msgs
  · rw [handle_gossip_dup s m hd]
  · rw [handle_gossip_fresh s m hd]

theorem gossip_peers (s : Node N M) (m : GossipMessage N M) :
    ((s.handle_gossip m).eager_push_peers = listRemove m.sender s.eager_push_peers ∧
     (s.handle_gossip m).lazy_push_peers = listInsert m.sender s.lazy_push_peers) ∨
    ((s.handle_gossip m).eager_push_peers = listInsert m.sender s.eager_push_peers ∧
     (s.handle_gossip m).lazy_push_peers = listRemove m.sender s.lazy_push_peers) := by
  by_cases hd : m.message_id ∈ s.received_msgs
  · rw [handle_gossip_dup s m hd]
    exact Or.inl ⟨rfl, rfl⟩
  · rw [handle_gossip_fresh s m hd]
    exact Or.inr ⟨rfl, rfl⟩

theorem handle_ihave_state (s : Node N M) (m : IhaveMessage N M) :
    (s.handle_ihave m).eager_push_peers = s.eager_push_peers ∧
    (s.handle_ihave m).lazy_push_peers = s.lazy_push_peers ∧
    (s.handle_ihave m).node_id = s.node_id := by
  unfold Node.handle_ihave
  split <;> exact ⟨rfl, rfl, rfl⟩

theorem handle_graft_state (s : Node N M) (m : GraftMessage N M) :
    (s.handle_graft m).eager_push_peers = listInsert m.sender s.eager_push_peers ∧
    (s.handle_graft m).lazy_push_peers = listRemove m.sender s.lazy_push_peers ∧
    (s.handle_graft m).node_id = s.node_id := by
  cases hmi : m.message_id with
  | none => simp [Node.handle_graft, hmi]
  | some id =>
    simp only [Node.handle_graft, hmi]
    split <;> simp

/-! ### The tick loop never introduces an unknown peer, keeps disjointness -/

theorem tickLoop_unknown_not_mem (fuel : Nat) :
    ∀ (s : Node N M) (x : N), x ∉ s.eager_push_peers → x ∉ s.lazy_push_peers →
    x ∉ (tickLoop fuel s).eager_push_peers ∧
    x ∉ (tickLoop fuel s).lazy_push_peers := by
  induction fuel with
  | zero => intro s x he hl; exact ⟨he, hl⟩
  | succ n ih =>
    intro s x he hl
    cases hp : popExpired s.clock s.missing with
    | none =>
      rw [tickLoop_succ_none hp]
      exact ⟨he, hl⟩
    | some pr =>
      obtain ⟨e0, rest⟩ := pr
      rw [tickLoop_succ_some hp]
      refine ih _ x ?_ ?_
      · unfold tickStep
        split
        · rename_i hk2
          have hne : x ≠ e0.sender := by
            intro hEq
            rcases hk2 with h1 | h1
            · exact he (by rw [hEq]; exact h1)
            · exact hl (by rw [hEq]; exact h1)
          exact not_mem_listInsert_of he hne
        · exact he
      · unfold tickStep
        split
        · exact not_mem_listRemove_of hl
        · exact hl

theorem tickLoop_disjoint (fuel : Nat) :
    ∀ s : Node N M, (∀ p ∈ s.eager_push_peers, p ∉ s.lazy_push_peers) →
    ∀ p ∈ (tickLoop fuel s).eager_push_peers,
      p ∉ (tickLoop fuel s).lazy_push_peers := by
  induction fuel with
  | zero => intro s h; exact h
  | succ n ih =>
    intro s hdisj
    cases hp : popExpired s.clock s.missing with
    | none =>
      rw [tickLoop_succ_none hp]
      exact hdisj
    | some pr =>
      obtain ⟨e0, rest⟩ := pr
      rw [tickLoop_succ_some hp]
      apply ih
      unfold tickStep
      split
      · exact disjoint_promote hdisj e0.sender
      · exact hdisj

/-! ### Reachability invariants -/

theorem noSelf_reachable {nid : N} {s : Node N M} (h : Reachable nid s) :
    s.node_id = nid ∧ nid ∉ s.eager_push_peers ∧ nid ∉ s.lazy_push_peers := by
  induction h with
  | new => exact ⟨rfl, List.not_mem_nil nid, List.not_mem_nil nid⟩
  | handle_message s msg hs ih =>
    obtain ⟨hid, he, hl⟩ := ih
    by_cases hk : s.is_known_node msg.sender
    · have hsender : msg.sender ≠ nid := by
        intro hEq
        rcases hk with h1 | h1
        · exact he (by rw [← hEq]; exact h1)
        · exact hl (by rw [← hEq]; exact h1)
      cases msg with
      | gossip m =>
        rw [handle_message_gossip hk]
        refine ⟨(handle_gossip_node_id s m).trans hid, ?_⟩
        rcases gossip_peers s m with ⟨he2, hl2⟩ | ⟨he2, hl2⟩ <;> rw [he2, hl2]
        · exact ⟨not_mem_listRemove_of he,
            not_mem_listInsert_of hl (Ne.symm hsender)⟩
        · exact ⟨not_mem_listInsert_of he (Ne.symm hsender),
            not_mem_listRemove_of hl⟩
      | ihave m =>
        rw [handle_message_ihave hk]
        obtain ⟨e1, e2, e3⟩ := handle_ihave_state s m
        rw [e1, e2, e3]
        exact ⟨hid, he, hl⟩
      | graft m =>
        rw [handle_message_graft hk]
        obtain ⟨e1, e2, e3⟩ := handle_graft_state s m
        rw [e1, e2, e3]
        exact ⟨hid, not_mem_listInsert_of he (Ne.symm hsender),
          not_mem_listRemove_of hl⟩
      | prune m =>
        rw [handle_message_prune hk]
        exact ⟨hid, not_mem_listRemove_of he,
          not_mem_listInsert_of hl (Ne.symm hsender)⟩
    · rw [handle_message_not_known hk]
      exact ⟨hid, he, hl⟩
  | neighbour_up s p hs ih =>
    obtain ⟨hid, he, hl⟩ := ih
    unfold Node.handle_neighbour_up
    split
    · exact ⟨hid, he, hl⟩
    · rename_i hne
      have hne2 : nid ≠ p := fun hEq => hne (hid.trans hEq)
      exact ⟨hid, not_mem_listInsert_of he hne2, hl⟩
  | neighbour_down s p hs ih =>
    obtain ⟨hid, he, hl⟩ := ih
    exact ⟨hid, not_mem_listRemove_of he, not_mem_listRemove_of hl⟩
  | forget s id hs ih => exact ih
  | tick s hs ih =>
    obtain ⟨hid, he, hl⟩ := ih
    exact ⟨(tickLoop_node_id _ _).trans hid,
      tickLoop_unknown_not_mem s.missing.length
        { s with clock := s.clock + 1 } nid he hl⟩
  | poll s hs ih =>
    obtain ⟨hid, he, hl⟩ := ih
    unfold Node.poll_action
    split <;> exact ⟨hid, he, hl⟩

theorem peersDisjoint_reachableG {nid : N} {s : Node N M}
    (h : ReachableG nid s) :
    ∀ p ∈ s.eager_push_peers, p ∉ s.lazy_push_peers := by
  induction h with
  | new =>
    intro p hp
    cases hp
  | handle_message s msg hs ih =>
    by_cases hk : s.is_known_node msg.sender
    · cases msg with
      | gossip m =>
        rw [handle_message_gossip hk]
        rcases gossip_peers s m with ⟨he2, hl2⟩ | ⟨he2, hl2⟩ <;> rw [he2, hl2]
        · exact disjoint_demote ih m.sender
        · exact disjoint_promote ih m.sender
      | ihave m =>
        rw [handle_message_ihave hk]
        obtain ⟨e1, e2, -⟩ := handle_ihave_state s m
        rw [e1, e2]
        exact ih
      | graft m =>
        rw [handle_message_graft hk]
        obtain ⟨e1, e2, -⟩ := handle_graft_state s m
        rw [e1, e2]
        exact disjoint_promote ih m.sender
      | prune m =>
        rw [handle_message_prune hk]
        exact disjoint_demote ih m.sender
    · rw [handle_message_not_known hk]
      exact ih
  | neighbour_up s p hg hs ih =>
    unfold Node.handle_neighbour_up
    split
    · exact ih
    · intro q hq hql
      rcases mem_listInsert.mp hq with rfl | h1
      · exact hg hql
      · exact ih q h1 hql
  | neighbour_down s p hs ih =>
    intro q hq hql
    exact ih q (mem_listRemove.mp hq).1 (mem_listRemove.mp hql).1
  | forget s id hs ih => exact ih
  | tick s hs ih =>
    exact tickLoop_disjoint s.missing.length { s with clock := s.clock + 1 } ih
  | poll s hs ih =>
    unfold Node.poll_action
    split <;> exact ih

/-! ### Claim theorems: the peer-set invariant (C1) -/

/-- C1 counterexample: the state reached by `neighbour_up 1`, a prune from
`1`, and `neighbour_up 1` again is reachable, yet peer `1` sits in *both*
peer sets — `handle_neighbour_up` inserts into the eager set without
removing the peer from the lazy set. -/
theorem peer_sets_not_disjoint_counterexample :
    Reachable 0 nodeC1 ∧ (1 : Nat) ∈ nodeC1.eager_push_peers ∧
    (1 : Nat) ∈ nodeC1.lazy_push_peers := by
  refine ⟨?_, by decide, by decide⟩
  exact Reachable.neighbour_up _ 1
    (Reachable.handle_message _ (Message.prune ⟨1⟩)
      (Reachable.neighbour_up _ 1 Reachable.new))

/-- C1 amended: in every reachable state `node_id` is in neither peer set;
and the two peer sets are disjoint in every state reachable by drivers that
never call `handle_neighbour_up p` while `p` is in `lazy_push_peers`. -/
theorem reachable_invariants (nid : N) (s : Node N M) :
    (Reachable nid s → nid ∉ s.eager_push_peers ∧ nid ∉ s.lazy_push_peers) ∧
    (ReachableG nid s → ∀ p ∈ s.eager_push_peers, p ∉ s.lazy_push_peers) :=
  ⟨fun h => (noSelf_reachable h).2, fun h => peersDisjoint_reachableG h⟩

/-- Witness for the amended C1 at the concrete reachable state `baseW`. -/
theorem reachable_invariants_witness :
    ((0 : Nat) ∉ baseW.eager_push_peers ∧ (0 : Nat) ∉ baseW.lazy_push_peers) ∧
    (∀ p ∈ baseW.eager_push_peers, p ∉ baseW.lazy_push_peers) :=
  ⟨(reachable_invariants 0 baseW).1
    (Reachable.neighbour_up _ 2 (Reachable.neighbour_up _ 1 Reachable.new)),
   (reachable_invariants 0 baseW).2
    (ReachableG.neighbour_up _ 2 (by decide)
      (ReachableG.neighbour_up _ 1 (by decide) ReachableG.new))⟩

/-! ### Claim theorems: the optimization check (C2) -/

theorem no_graft_prune_in_fresh (s : Node N M) (m : GossipMessage N M) :
    ∀ a ∈ (Action.deliver m.message_id ::
        (eagerSends s m ++ lazySends s m) : List (Action N M)),
      (∀ (p : N) (g : GraftMessage N M), a ≠ Action.send p (Message.graft g)) ∧
      (∀ (p : N) (g : PruneMessage N), a ≠ Action.send p (Message.prune g)) := by
  intro a ha
  rcases List.mem_cons.mp ha with rfl | ha2
  · exact ⟨fun p g h => (by cases h), fun p g h => (by cases h)⟩
  rcases List.mem_append.mp ha2 with h1 | h1
  · unfold eagerSends at h1
    rcases List.mem_map.mp h1 with ⟨q, -, rfl⟩
    exact ⟨fun p g h => (by simp at h), fun p g h => (by simp at h)⟩
  · unfold lazySends at h1
    rcases List.mem_map.mp h1 with ⟨q, -, rfl⟩
    exact ⟨fun p g h => (by simp at h), fun p g h => (by simp at h)⟩

/-- C2 counterexample: `ihaveW` holds exactly the minimum-round missing entry
`⟨10, 2, 0, 1⟩`, the gossip `⟨1, 10, 5⟩` is first-seen from a known peer and
its round beats the entry by `5 ≥ 3`, yet neither the optimization `Graft`
to `2` nor the `Prune` to `1` is ever enqueued. -/
theorem optimize_never_fires_counterexample :
    getById 10 ihaveW.missing = some ⟨10, 2, 0, 1⟩ ∧
    ihaveW.is_known_node 1 ∧ (10 : Nat) ∉ ihaveW.received_msgs ∧
    (0 : Nat) < 5 ∧ 5 - 0 ≥ 3 ∧
    Action.send 2 (Message.graft ⟨0, none, 0⟩) ∉ optW.action_queue ∧
    Action.send 1 (Message.prune ⟨0⟩) ∉ optW.action_queue := by
  decide

/-- C2 amended: on a first-seen gossip the optimization never fires — the
handler cancels every missing entry for `m.message_id` before `optimize`
consults the tracker, so even under the claim's premises (a minimum-round
entry with `entry.round < m.round` and `m.round - entry.round ≥ 3`) no
`Graft(entry.sender, ..)` and no `Prune(m.sender)` is enqueued. -/
theorem optimize_suppressed_on_first_seen (s : Node N M)
    (m : GossipMessage N M) (hk : s.is_known_node m.sender)
    (hf : m.message_id ∉ s.received_msgs) (e : MissingEntry N M)
    (he : getById m.message_id s.missing = some e)
    (hr : e.round < m.round ∧ m.round - e.round ≥ 3) :
    Action.send e.sender (Message.graft ⟨s.node_id, none, e.round⟩) ∉
      newActions s (s.handle_message (Message.gossip m)) ∧
    Action.send m.sender (Message.prune ⟨s.node_id⟩) ∉
      newActions s (s.handle_message (Message.gossip m)) := by
  rw [handle_message_gossip hk, handle_gossip_fresh s m hf,
    newActions_of_append rfl]
  constructor
  · intro hmem
    exact (no_graft_prune_in_fresh s m _ hmem).1 e.sender
      ⟨s.node_id, none, e.round⟩ rfl
  · intro hmem
    exact (no_graft_prune_in_fresh s m _ hmem).2 m.sender ⟨s.node_id⟩ rfl

/-- Witness for the amended C2 at the concrete scenario of the
counterexample. -/
theorem optimize_suppressed_on_first_seen_witness :
    Action.send 2 (Message.graft ⟨0, none, 0⟩) ∉
      newActions ihaveW (ihaveW.handle_message (Message.gossip ⟨1, 10, 5⟩)) ∧
    Action.send 1 (Message.prune ⟨0⟩) ∉
      newActions ihaveW (ihaveW.handle_message (Message.gossip ⟨1, 10, 5⟩)) :=
  optimize_suppressed_on_first_seen ihaveW ⟨1, 10, 5⟩ (by decide) (by decide)
    ⟨10, 2, 0, 1⟩ (by decide) (by decide)

end Plumtree
